import Mathlib

/-!
Verification of the chunk-hashed prefix trie from `benchmark.py`.

The Python source defines `TrieNode` (a dict of children keyed by 64-bit
chunk hashes, a set of endpoint strings, and a per-node asyncio lock),
and `HashTrie` with three operations: `insert`, and the two lookup
variants `longest_prefix_match_original` / `longest_prefix_match_new`.
Here the quiescent (single-task, no interleaving) semantics of those
operations is embedded shallowly:

* Python `dict` becomes an association list `List (Nat × _)` with
  replace-in-place update (`aupdate`) and first-match lookup (`alookup`);
* Python `set` of endpoint strings becomes a `List String` with
  membership-guarded append (`addEp`) and filter-based intersection
  (`inter`); all set-level claims are stated up to membership;
* the xxh64 hash of the external `xxhash` library is an opaque parameter
  `hash : List Nat → Nat` taking the UTF-8 bytes of a chunk;
* `asyncio.Lock` acquisitions have no observable effect in the quiescent
  semantics and are dropped.

For the frame claims (the lookups never mutate the trie) a second,
store-passing view is given: nodes live in a heap `List NodeData`
addressed by index, and both lookups thread the heap so that a mutation,
had the source performed one, would be visible in the returned heap.
-/

set_option autoImplicit false

namespace Benchmark

universe u

/-- Membership-guarded append: the quiescent semantics of Python's
`set.add` on an endpoint set represented as a duplicate-free list. -/
def addEp (eps : List String) (e : String) : List String :=
  if e ∈ eps then eps else eps ++ [e]

/-- First-match lookup in an association list: the semantics of Python's
`dict.get` / `dict.__getitem__` on `node.children`. -/
def alookup {β : Type u} : List (Nat × β) → Nat → Option β
  | [], _ => none
  | (k, v) :: rest, h => if k = h then some v else alookup rest h

/-- Replace-in-place (or append) update of an association list: the
semantics of Python's `dict.__setitem__` on `node.children`. -/
def aupdate {β : Type u} : List (Nat × β) → Nat → β → List (Nat × β)
  | [], k, v => [(k, v)]
  | (k', v') :: rest, k, v =>
    if k' = k then (k, v) :: rest else (k', v') :: aupdate rest k v

/-- Python's `a.intersection(b)` on endpoint sets represented as lists:
the elements of `a` that are also in `b`. -/
def inter (a b : List String) : List String :=
  a.filter (fun x => decide (x ∈ b))

/-- `TrieNode` from `benchmark.py`: `children` is the hash-keyed child
dict, `endpoints` the endpoint set.  The per-node `asyncio.Lock` has no
observable effect in the quiescent semantics and is not represented. -/
inductive TrieNode : Type where
  | mk (children : List (Nat × TrieNode)) (endpoints : List String) : TrieNode

/-- The `children` field of a `TrieNode`. -/
def TrieNode.children : TrieNode → List (Nat × TrieNode)
  | .mk c _ => c

/-- The `endpoints` field of a `TrieNode`. -/
def TrieNode.endpoints : TrieNode → List String
  | .mk _ e => e

/-- `HashTrie.insert` from `benchmark.py`, with the request already
chunk-hashed to `hs`: add `endpoint` to the current node's endpoint set,
then for each remaining hash get-or-create the child and continue there.
(The Python loop adds the endpoint to the root before the loop and to
each child after descending; this recursion performs exactly those
updates.) -/
def insertAux : TrieNode → List Nat → String → TrieNode
  | t, [], e => TrieNode.mk t.children (addEp t.endpoints e)
  | t, h :: rest, e =>
    let child := (alookup t.children h).getD (TrieNode.mk [] [])
    TrieNode.mk (aupdate t.children h (insertAux child rest e)) (addEp t.endpoints e)

/-- A sequence of `insert` calls, each given by a chunk-hash list and an
endpoint, performed left to right. -/
def insertList (t : TrieNode) (ops : List (List Nat × String)) : TrieNode :=
  ops.foldl (fun acc op => insertAux acc op.1 op.2) t

/-- `HashTrie.longest_prefix_match_original` from `benchmark.py`
(variant A), on an already chunk-hashed request, returning the final
values of the loop state `(node, match_length, selected_endpoints)`.
Note that the Python code executes `node = node.children[chunk_hash]`
before testing the intersection, so on an empty intersection the
returned node is the child just descended to. -/
def lpmOrigAux (chunkSize : Nat) : TrieNode → List Nat → Nat → List String →
    TrieNode × Nat × List String
  | node, [], ml, sel => (node, ml, sel)
  | node, h :: rest, ml, sel =>
    match alookup node.children h with
    | none => (node, ml, sel)
    | some child =>
      if inter child.endpoints sel = [] then (child, ml, sel)
      else lpmOrigAux chunkSize child rest (ml + chunkSize) (inter child.endpoints sel)

/-- `HashTrie.longest_prefix_match_new` from `benchmark.py` (variant B),
on an already chunk-hashed request, returning the final values of the
loop state `(node, match_length, selected_endpoints)`.  In the Python
code `node = node.children.get(chunk_hash)` may leave `node = None`,
hence the `Option TrieNode` component. -/
def lpmNewAux (chunkSize : Nat) : TrieNode → List Nat → Nat → List String →
    Option TrieNode × Nat × List String
  | node, [], ml, sel => (some node, ml, sel)
  | node, h :: rest, ml, sel =>
    match alookup node.children h with
    | none => (none, ml, sel)
    | some child =>
      let endpoints := child.endpoints
      let intersection := inter endpoints sel
      if intersection = [] then (some child, ml, sel)
      else lpmNewAux chunkSize child rest (ml + chunkSize) intersection

/-- The node reached from `t` by following the chunk-hash path `p`. -/
def nodeAt : TrieNode → List Nat → Option TrieNode
  | t, [] => some t
  | t, h :: rest =>
    match alookup t.children h with
    | none => none
    | some c => nodeAt c rest

/-- The loop body of `HashTrie._chunk_and_hash`, fuel-indexed for
structural recursion: splits a list into consecutive non-overlapping
windows of `cs` elements, the final window possibly shorter.  The fuel
is an upper bound on the number of elements and never runs out when
called through `chunkList`. -/
def chunkLoop {α : Type u} : Nat → Nat → List α → List (List α)
  | 0, _, _ => []
  | _, _, [] => []
  | fuel + 1, cs, x :: xs =>
    List.take cs (x :: xs) :: chunkLoop fuel cs (List.drop (cs - 1) xs)

/-- The window decomposition performed by
`for i in range(0, len(text), chunk_size): text[i : i + chunk_size]`
in `HashTrie._chunk_and_hash`: consecutive non-overlapping windows of
`cs` elements of `l`, the last possibly shorter.  (Python raises on
`chunk_size = 0`; the constructor validation in `HashTrie.init`
guarantees `cs > 0`, so the `cs = 0` behaviour of this total function
is never relied upon.) -/
def chunkList {α : Type u} (cs : Nat) (l : List α) : List (List α) :=
  chunkLoop l.length cs l

/-- The UTF-8 encoding of one Unicode scalar value, as performed by
Python's `str.encode('utf-8')` on each character of a chunk. -/
def utf8EncodeChar (c : Char) : List Nat :=
  let n := c.toNat
  if n < 0x80 then [n]
  else if n < 0x800 then [0xC0 + n / 0x40, 0x80 + n % 0x40]
  else if n < 0x10000 then
    [0xE0 + n / 0x1000, 0x80 + (n / 0x40) % 0x40, 0x80 + n % 0x40]
  else
    [0xF0 + n / 0x40000, 0x80 + (n / 0x1000) % 0x40,
     0x80 + (n / 0x40) % 0x40, 0x80 + n % 0x40]

/-- The UTF-8 encoding of a text, character by character:
Python's `text.encode('utf-8')`. -/
def utf8Encode (s : List Char) : List Nat :=
  (s.map utf8EncodeChar).flatten

/-- `HashTrie._chunk_and_hash` from `benchmark.py`: split the request
text into consecutive character windows of `cs` characters (the last
possibly shorter) and hash the UTF-8 bytes of each window.  The xxh64
hash of the external `xxhash` library is the opaque parameter `hash`. -/
def chunkAndHash (hash : List Nat → Nat) (cs : Nat) (text : List Char) : List Nat :=
  (chunkList cs text).map (fun w => hash (utf8Encode w))

/-- Modelled from the spec's words for the refinement comparison of the
chunk/hash contract: "one [key] per consecutive non-overlapping byte
window of length `chunk_size` (the final window may be shorter). Each
key is produced by a ... 64-bit hash of the raw bytes of that window" —
i.e. the windows are cut from the UTF-8 byte string of the whole
request, not from its characters. -/
def specByteWindowKeys (hash : List Nat → Nat) (cs : Nat) (text : List Char) : List Nat :=
  (chunkList cs (utf8Encode text)).map hash

/-- A concrete stand-in for the external 64-bit hash, used only to
instantiate counterexamples and witnesses. -/
def demoHash (bs : List Nat) : Nat :=
  bs.foldl (fun a b => a * 256 + b) 0

/-- The trie obtained from a fresh `HashTrie` by inserting the request
`P` once for each endpoint of `es`, in order. -/
def builtTrie (hash : List Nat → Nat) (cs : Nat) (P : List Char) (es : List String) : TrieNode :=
  insertList (TrieNode.mk [] []) (es.map (fun e => (chunkAndHash hash cs P, e)))

/-- A single path of nodes keyed by `hs`, every node carrying the same
endpoint list `eps`: the shape produced by inserting one request for a
set of endpoints into a fresh trie. -/
def pathTrie : List Nat → List String → TrieNode
  | [], eps => TrieNode.mk [] eps
  | h :: rest, eps => TrieNode.mk [(h, pathTrie rest eps)] eps

/-- The mutable fields of one `TrieNode` in the store-passing view:
children map chunk hashes to heap indices. -/
structure NodeData : Type where
  children : List (Nat × Nat)
  endpoints : List String

/-- `longest_prefix_match_original` in the store-passing view: nodes
live in a heap addressed by index, and the heap is threaded through the
walk so that any mutation the source performed would show up in the
returned heap.  The source only reads (`in`-test, `__getitem__`,
`intersection`), so every branch passes `heap` through unchanged. -/
def lpmOrigHeap (chunkSize : Nat) : List NodeData → Nat → List Nat → Nat → List String →
    List NodeData × Nat × Nat × List String
  | heap, nodeId, [], ml, sel => (heap, nodeId, ml, sel)
  | heap, nodeId, h :: rest, ml, sel =>
    match alookup (heap.getD nodeId ⟨[], []⟩).children h with
    | none => (heap, nodeId, ml, sel)
    | some childId =>
      if inter (heap.getD childId ⟨[], []⟩).endpoints sel = [] then
        (heap, childId, ml, sel)
      else
        lpmOrigHeap chunkSize heap childId rest (ml + chunkSize)
          (inter (heap.getD childId ⟨[], []⟩).endpoints sel)

/-- `longest_prefix_match_new` in the store-passing view, threading the
heap exactly as `lpmOrigHeap` does.  The source only reads
(`dict.get`, `set.copy`, `intersection`), so every branch passes `heap`
through unchanged. -/
def lpmNewHeap (chunkSize : Nat) : List NodeData → Nat → List Nat → Nat → List String →
    List NodeData × Option Nat × Nat × List String
  | heap, nodeId, [], ml, sel => (heap, some nodeId, ml, sel)
  | heap, nodeId, h :: rest, ml, sel =>
    match alookup (heap.getD nodeId ⟨[], []⟩).children h with
    | none => (heap, none, ml, sel)
    | some childId =>
      let endpoints := (heap.getD childId ⟨[], []⟩).endpoints
      let intersection := inter endpoints sel
      if intersection = [] then (heap, some childId, ml, sel)
      else lpmNewHeap chunkSize heap childId rest (ml + chunkSize) intersection

/-- A Python value passed as the `chunk_size` argument of
`HashTrie.__init__`: either an `int` or some non-`int` value
(summarised by a tag), as discriminated by `isinstance(chunk_size, int)`. -/
inductive PyVal : Type where
  | intVal (n : Int) : PyVal
  | nonInt (tag : String) : PyVal

/-- The `HashTrie` object: the validated positive `chunk_size` and the
root node. -/
structure HashTrie : Type where
  chunkSize : Nat
  root : TrieNode

/-- `HashTrie.__init__` from `benchmark.py`:
`if not isinstance(chunk_size, int) or chunk_size <= 0: raise
ValueError(...)`; otherwise the trie is created with a fresh empty root.
The raised `ValueError` is modelled as `Except.error` carrying the
message, so an error carries no (partial) trie. -/
def HashTrie.init (chunkSize : PyVal) : Except String HashTrie :=
  match chunkSize with
  | .nonInt _ => .error "chunk_size must be a positive integer."
  | .intVal n =>
    if n ≤ 0 then .error "chunk_size must be a positive integer."
    else .ok ⟨n.toNat, TrieNode.mk [] []⟩

/-! ### Basic lemmas about the container operations -/

@[simp] theorem children_mk (c : List (Nat × TrieNode)) (e : List String) :
    (TrieNode.mk c e).children = c := rfl

@[simp] theorem endpoints_mk (c : List (Nat × TrieNode)) (e : List String) :
    (TrieNode.mk c e).endpoints = e := rfl

theorem mem_addEp {x e : String} {l : List String} : x ∈ addEp l e ↔ x ∈ l ∨ x = e := by
  unfold addEp
  split
  · constructor
    · exact fun h => Or.inl h
    · rintro (h | rfl) <;> assumption
  · simp

theorem mem_addEp_of_mem {x e : String} {l : List String} (h : x ∈ l) : x ∈ addEp l e :=
  mem_addEp.mpr (Or.inl h)

theorem self_mem_addEp (e : String) (l : List String) : e ∈ addEp l e :=
  mem_addEp.mpr (Or.inr rfl)

theorem addEp_addEp (l : List String) (e : String) : addEp (addEp l e) e = addEp l e := by
  have h : e ∈ addEp l e := self_mem_addEp e l
  show (if e ∈ addEp l e then addEp l e else addEp l e ++ [e]) = addEp l e
  rw [if_pos h]

theorem alookup_aupdate_self {β : Type u} (l : List (Nat × β)) (k : Nat) (v : β) :
    alookup (aupdate l k v) k = some v := by
  induction l with
  | nil => simp [aupdate, alookup]
  | cons p rest ih =>
    obtain ⟨k', v'⟩ := p
    by_cases h : k' = k <;> simp [aupdate, alookup, h, ih]

theorem alookup_aupdate_ne {β : Type u} (l : List (Nat × β)) (k k' : Nat) (v : β)
    (h : k' ≠ k) : alookup (aupdate l k v) k' = alookup l k' := by
  induction l with
  | nil =>
    simp only [aupdate, alookup]
    rw [if_neg (Ne.symm h)]
  | cons p rest ih =>
    obtain ⟨k₀, v₀⟩ := p
    by_cases h₀ : k₀ = k
    · subst h₀
      simp only [aupdate, if_pos rfl, alookup]
      rw [if_neg (Ne.symm h), if_neg (Ne.symm h)]
    · simp [aupdate, alookup, h₀, ih]

theorem aupdate_aupdate {β : Type u} (l : List (Nat × β)) (k : Nat) (v v' : β) :
    aupdate (aupdate l k v) k v' = aupdate l k v' := by
  induction l with
  | nil => simp [aupdate]
  | cons p rest ih =>
    obtain ⟨k₀, v₀⟩ := p
    by_cases h₀ : k₀ = k <;> simp [aupdate, h₀, ih]

theorem mem_inter {x : String} {a b : List String} : x ∈ inter a b ↔ x ∈ a ∧ x ∈ b := by
  simp [inter]

theorem inter_eq_self {a b : List String} (h : ∀ x ∈ a, x ∈ b) : inter a b = a := by
  unfold inter
  induction a with
  | nil => rfl
  | cons y ys ih =>
    have hy : y ∈ b := h y (List.mem_cons_self y ys)
    rw [List.filter_cons_of_pos (by simpa using hy)]
    exact congrArg (y :: ·) (ih fun x hx => h x (List.mem_cons_of_mem y hx))

theorem nodeAt_cons_none {t : TrieNode} {h : Nat} {p : List Nat}
    (hm : alookup t.children h = none) : nodeAt t (h :: p) = none := by
  simp [nodeAt, hm]

theorem nodeAt_cons_some {t c : TrieNode} {h : Nat} {p : List Nat}
    (hm : alookup t.children h = some c) : nodeAt t (h :: p) = nodeAt c p := by
  simp [nodeAt, hm]

theorem insertAux_endpoints (t : TrieNode) (hs : List Nat) (e : String) :
    (insertAux t hs e).endpoints = addEp t.endpoints e := by
  cases hs <;> rfl

/-! ### The two lookup variants compute the same match length and
selection -/

/-- On any fixed trie, both lookup walks step through identical
child-lookup, intersection-test, and state-update decisions, so the
`(match_length, selected_endpoints)` components coincide at every
recursion depth. -/
theorem lpm_eq_aux (cs : Nat) (hs : List Nat) : ∀ (t : TrieNode) (ml : Nat) (sel : List String),
    (lpmOrigAux cs t hs ml sel).2 = (lpmNewAux cs t hs ml sel).2 := by
  induction hs with
  | nil => intro t ml sel; rfl
  | cons h rest ih =>
    intro t ml sel
    simp only [lpmOrigAux, lpmNewAux]
    cases alookup t.children h with
    | none => rfl
    | some child =>
      by_cases hi : inter child.endpoints sel = []
      · simp [hi]
      · simp [hi, ih]

/-- C1: for every fixed trie state, request text, and available set,
Variant A (`longest_prefix_match_original`) and Variant B
(`longest_prefix_match_new`) end with the same final `match_length` and
the same final `selected_endpoints`. -/
theorem c1_variants_agree (hash : List Nat → Nat) (cs : Nat) (t : TrieNode)
    (text : List Char) (avail : List String) :
    (lpmOrigAux cs t (chunkAndHash hash cs text) 0 avail).2 =
      (lpmNewAux cs t (chunkAndHash hash cs text) 0 avail).2 :=
  lpm_eq_aux cs (chunkAndHash hash cs text) t 0 avail

/-! ### The chunk decomposition -/

theorem chunkLoop_nil {α : Type u} (fuel cs : Nat) : chunkLoop fuel cs ([] : List α) = [] := by
  cases fuel <;> rfl

theorem chunkLoop_length {α : Type u} (cs : Nat) (hcs : 0 < cs) :
    ∀ (fuel : Nat) (l : List α), l.length ≤ fuel →
      (chunkLoop fuel cs l).length = (l.length + cs - 1) / cs := by
  intro fuel
  induction fuel with
  | zero =>
    intro l hl
    have hnil : l = [] := List.eq_nil_of_length_eq_zero (Nat.le_zero.mp hl)
    subst hnil
    rw [chunkLoop_nil]
    simp only [List.length_nil]
    exact (Nat.div_eq_of_lt (by omega)).symm
  | succ n ih =>
    intro l hl
    cases l with
    | nil =>
      rw [chunkLoop_nil]
      simp only [List.length_nil]
      exact (Nat.div_eq_of_lt (by omega)).symm
    | cons x xs =>
      simp only [chunkLoop, List.length_cons]
      rw [ih _ (by simp only [List.length_drop, List.length_cons] at hl ⊢; omega),
        List.length_drop]
      rcases Nat.lt_or_ge xs.length (cs - 1) with hlt | hge
      · have h1 : xs.length - (cs - 1) + cs - 1 = cs - 1 := by omega
        have h2 : xs.length + 1 + cs - 1 = xs.length + cs := by omega
        rw [h1, h2, Nat.add_div_right _ hcs,
          Nat.div_eq_of_lt (by omega), Nat.div_eq_of_lt (by omega)]
      · have h1 : xs.length - (cs - 1) + cs - 1 = xs.length := by omega
        have h2 : xs.length + 1 + cs - 1 = xs.length + cs := by omega
        rw [h1, h2, Nat.add_div_right _ hcs]

theorem chunkList_length {α : Type u} (cs : Nat) (hcs : 0 < cs) (l : List α) :
    (chunkList cs l).length = (l.length + cs - 1) / cs :=
  chunkLoop_length cs hcs l.length l le_rfl

theorem chunkAndHash_length (hash : List Nat → Nat) (cs : Nat) (hcs : 0 < cs)
    (text : List Char) :
    (chunkAndHash hash cs text).length = (text.length + cs - 1) / cs := by
  simp [chunkAndHash, chunkList_length cs hcs]

theorem chunkLoop_flatten {α : Type u} (cs : Nat) (hcs : 0 < cs) :
    ∀ (fuel : Nat) (l : List α), l.length ≤ fuel → (chunkLoop fuel cs l).flatten = l := by
  intro fuel
  induction fuel with
  | zero =>
    intro l hl
    have : l = [] := List.eq_nil_of_length_eq_zero (Nat.le_zero.mp hl)
    subst this
    rfl
  | succ n ih =>
    intro l hl
    cases l with
    | nil => rfl
    | cons x xs =>
      simp only [chunkLoop, List.flatten_cons]
      rw [ih _ (by simp only [List.length_drop, List.length_cons] at hl ⊢; omega)]
      cases cs with
      | zero => omega
      | succ m =>
        simp only [List.take_succ_cons, Nat.add_sub_cancel, List.cons_append,
          List.take_append_drop]

theorem chunkLoop_windows {α : Type u} (cs : Nat) (hcs : 0 < cs) :
    ∀ (fuel : Nat) (l : List α) (w : List α), l.length ≤ fuel →
      w ∈ chunkLoop fuel cs l → w ≠ [] ∧ w.length ≤ cs := by
  intro fuel
  induction fuel with
  | zero =>
    intro l w _ hw
    simp [chunkLoop] at hw
  | succ n ih =>
    intro l w hl hw
    cases l with
    | nil => simp [chunkLoop] at hw
    | cons x xs =>
      simp only [chunkLoop, List.mem_cons] at hw
      rcases hw with rfl | hw
      · refine ⟨?_, by simp⟩
        cases cs with
        | zero => omega
        | succ m => simp
      · exact ih _ _ (by simp only [List.length_drop, List.length_cons] at hl ⊢; omega) hw

theorem chunkLoop_full_windows {α : Type u} (cs : Nat) (hcs : 0 < cs) :
    ∀ (fuel : Nat) (l : List α) (i : Nat), l.length ≤ fuel →
      i + 1 < (chunkLoop fuel cs l).length →
      ((chunkLoop fuel cs l).getD i []).length = cs := by
  intro fuel
  induction fuel with
  | zero =>
    intro l i _ hi
    simp [chunkLoop] at hi
  | succ n ih =>
    intro l i hl hi
    cases l with
    | nil => simp [chunkLoop] at hi
    | cons x xs =>
      simp only [chunkLoop, List.length_cons] at hi ⊢
      cases i with
      | zero =>
        have hne : chunkLoop n cs (List.drop (cs - 1) xs) ≠ [] := by
          intro hnil
          rw [hnil] at hi
          simp at hi
        have hdrop : List.drop (cs - 1) xs ≠ [] := by
          intro hnil
          rw [hnil, chunkLoop_nil] at hne
          exact hne rfl
        have hlen : cs - 1 < xs.length := by
          by_contra hcon
          exact hdrop (List.drop_eq_nil_of_le (by omega))
        simp only [List.getD_cons_zero, List.length_take, List.length_cons]
        omega
      | succ j =>
        simp only [List.getD_cons_succ]
        exact ih _ j (by simp only [List.length_drop, List.length_cons] at hl ⊢; omega) (by omega)

/-- C5: for every positive chunk size and every request of (character)
length `L`, `_chunk_and_hash` yields exactly `ceil(L / chunk_size)`
chunk hashes; in particular the empty request yields none. -/
theorem c5_chunk_count (hash : List Nat → Nat) (cs : Nat) (text : List Char)
    (hcs : 0 < cs) :
    (chunkAndHash hash cs text).length = (text.length + cs - 1) / cs
    ∧ chunkAndHash hash cs [] = [] :=
  ⟨chunkAndHash_length hash cs hcs text, rfl⟩

/-- Witness for `c5_chunk_count` at `chunk_size = 2` and a three
character request: `ceil(3 / 2) = 2` chunk hashes are produced. -/
theorem c5_chunk_count_witness :
    0 < 2
    ∧ ((chunkAndHash demoHash 2 ['a', 'b', 'c']).length =
        ((['a', 'b', 'c'] : List Char).length + 2 - 1) / 2
      ∧ chunkAndHash demoHash 2 [] = []) :=
  ⟨by decide, c5_chunk_count demoHash 2 ['a', 'b', 'c'] (by decide)⟩

/-- C4 as stated is false: the code windows the request by characters
and hashes each window's UTF-8 encoding, which for a multi-byte
character is not a byte window of length `chunk_size`.  With
`chunk_size = 1` and the one-character request `"é"` (two UTF-8 bytes),
the code produces one key over the two bytes `[0xC3, 0xA9]`, while
byte-windowing the request produces two keys. -/
theorem c4_counterexample :
    chunkAndHash demoHash 1 ['é'] ≠ specByteWindowKeys demoHash 1 ['é'] := by
  decide

/-- C4 amended: for every positive `chunk_size`, the chunk/hash policy
partitions the request into consecutive non-overlapping *character*
windows of `chunk_size` characters — the windows concatenate back to
the request, every window is non-empty and at most `chunk_size` long,
and every window except possibly the last is exactly `chunk_size` long
— and each produced key is the hash of the *UTF-8 encoding* of its
window. -/
theorem c4_amended (hash : List Nat → Nat) (cs : Nat) (hcs : 0 < cs) (text : List Char) :
    (chunkList cs text).flatten = text
    ∧ (∀ w ∈ chunkList cs text, w ≠ [] ∧ w.length ≤ cs)
    ∧ (∀ i, i + 1 < (chunkList cs text).length →
        ((chunkList cs text).getD i []).length = cs)
    ∧ chunkAndHash hash cs text = (chunkList cs text).map (fun w => hash (utf8Encode w)) :=
  ⟨chunkLoop_flatten cs hcs text.length text le_rfl,
   fun w hw => chunkLoop_windows cs hcs text.length text w le_rfl hw,
   fun i hi => chunkLoop_full_windows cs hcs text.length text i le_rfl hi,
   rfl⟩

/-- Witness for `c4_amended` at `chunk_size = 2` and request `"abc"`:
the windows are `["ab", "c"]`, the first (non-final) window has exactly
2 characters, and the keys are the hashes of the windows' UTF-8 bytes. -/
theorem c4_amended_witness :
    0 < 2
    ∧ (chunkList 2 ['a', 'b', 'c']).flatten = ['a', 'b', 'c']
    ∧ ((['a', 'b'] : List Char) ≠ [] ∧ (['a', 'b'] : List Char).length ≤ 2)
    ∧ ((chunkList 2 ['a', 'b', 'c']).getD 0 []).length = 2
    ∧ chunkAndHash demoHash 2 ['a', 'b', 'c'] =
        (chunkList 2 ['a', 'b', 'c']).map (fun w => demoHash (utf8Encode w)) := by
  refine ⟨by decide, (c4_amended demoHash 2 (by decide) ['a', 'b', 'c']).1, ?_, ?_,
    (c4_amended demoHash 2 (by decide) ['a', 'b', 'c']).2.2.2⟩
  · exact (c4_amended demoHash 2 (by decide) ['a', 'b', 'c']).2.1 ['a', 'b'] (by decide)
  · exact (c4_amended demoHash 2 (by decide) ['a', 'b', 'c']).2.2.1 0 (by decide)

/-! ### Inserting one request for several endpoints builds a single path -/

theorem pathTrie_endpoints (hs : List Nat) (eps : List String) :
    (pathTrie hs eps).endpoints = eps := by
  cases hs <;> rfl

theorem insertAux_empty (hs : List Nat) (e : String) :
    insertAux (TrieNode.mk [] []) hs e = pathTrie hs [e] := by
  induction hs with
  | nil => rfl
  | cons h rest ih => simp [insertAux, pathTrie, alookup, aupdate, addEp, ih]

theorem insertAux_pathTrie (hs : List Nat) (eps : List String) (e : String) :
    insertAux (pathTrie hs eps) hs e = pathTrie hs (addEp eps e) := by
  induction hs with
  | nil => rfl
  | cons h rest ih => simp [insertAux, pathTrie, alookup, aupdate, ih]

theorem insertList_pathTrie (hs : List Nat) :
    ∀ (es eps : List String),
      insertList (pathTrie hs eps) (es.map (fun e => (hs, e))) =
        pathTrie hs (es.foldl addEp eps) := by
  intro es
  induction es with
  | nil => intro eps; rfl
  | cons a es ih =>
    intro eps
    simp only [List.map_cons, insertList, List.foldl_cons] at ih ⊢
    rw [insertAux_pathTrie]
    exact ih (addEp eps a)

theorem builtTrie_eq (hash : List Nat → Nat) (cs : Nat) (P : List Char)
    (e : String) (es : List String) :
    builtTrie hash cs P (e :: es) =
      pathTrie (chunkAndHash hash cs P) (es.foldl addEp [e]) := by
  unfold builtTrie
  simp only [List.map_cons, insertList, List.foldl_cons]
  rw [insertAux_empty]
  have := insertList_pathTrie (chunkAndHash hash cs P) es [e]
  simpa [insertList] using this

theorem mem_foldl_addEp (x : String) : ∀ (es eps : List String),
    x ∈ es.foldl addEp eps ↔ x ∈ eps ∨ x ∈ es := by
  intro es
  induction es with
  | nil => simp
  | cons a es ih =>
    intro eps
    rw [List.foldl_cons, ih, mem_addEp, List.mem_cons]
    tauto

/-- The walk of Variant A along a path trie whose nodes all carry the
endpoint list `E`: every chunk matches, the match length grows by
`chunk_size` per chunk, and the selection narrows to `E` at the first
step (or stays `sel` if there are no chunks). -/
theorem lpmOrig_pathTrie (cs : Nat) :
    ∀ (hs : List Nat) (E sel : List String) (ml : Nat),
      (∀ x ∈ E, x ∈ sel) → E ≠ [] →
      (lpmOrigAux cs (pathTrie hs E) hs ml sel).2 =
        (ml + cs * hs.length, if hs = [] then sel else E) := by
  intro hs
  induction hs with
  | nil => intro E sel ml hsub hne; simp [lpmOrigAux, pathTrie]
  | cons h rest ih =>
    intro E sel ml hsub hne
    have hE : inter E sel = E := inter_eq_self hsub
    simp only [pathTrie, lpmOrigAux, children_mk, alookup, if_pos, pathTrie_endpoints, hE,
      if_neg hne, List.length_cons, eq_self_iff_true, if_true]
    rw [ih E E (ml + cs) (fun x hx => hx) hne]
    simp only [ite_self, List.cons_ne_nil, if_neg, ite_false]
    have harith : ml + cs + cs * rest.length = ml + cs * (rest.length + 1) := by
      rw [Nat.mul_succ]; omega
    rw [harith]

/-- C2 as stated is false: `match_length` advances by `chunk_size` for
every matched chunk, including the final shorter one, so for a prefix
whose length is not a multiple of `chunk_size` the final matched length
exceeds the length of `P`.  Here `chunk_size = 2`, `P = "abc"`
(length 3), one endpoint: the final matched length is 4, not 3. -/
theorem c2_counterexample :
    (lpmOrigAux 2 (builtTrie demoHash 2 ['a', 'b', 'c'] ["e"])
        (chunkAndHash demoHash 2 ['a', 'b', 'c']) 0 ["e"]).2.1
      ≠ (['a', 'b', 'c'] : List Char).length := by
  decide

/-- C2 amended: after inserting a prefix `P` for each endpoint of the
non-empty set `es` into a fresh trie, a lookup of `P` with
`available = es` matches *all* chunks of `P` — the final matched length
is `chunk_size * ceil(|P| / chunk_size)`, which equals `|P|` exactly
when `chunk_size` divides `|P|` — and narrows the selection to exactly
the members of `es`, under both variants. -/
theorem c2_amended (hash : List Nat → Nat) (cs : Nat) (P : List Char) (es : List String)
    (hcs : 0 < cs) (hes : es ≠ []) :
    (lpmOrigAux cs (builtTrie hash cs P es) (chunkAndHash hash cs P) 0 es).2.1
        = cs * ((P.length + cs - 1) / cs)
    ∧ (∀ x, x ∈ (lpmOrigAux cs (builtTrie hash cs P es) (chunkAndHash hash cs P) 0 es).2.2
        ↔ x ∈ es)
    ∧ (lpmNewAux cs (builtTrie hash cs P es) (chunkAndHash hash cs P) 0 es).2.1
        = cs * ((P.length + cs - 1) / cs)
    ∧ (∀ x, x ∈ (lpmNewAux cs (builtTrie hash cs P es) (chunkAndHash hash cs P) 0 es).2.2
        ↔ x ∈ es)
    ∧ (cs ∣ P.length →
        (lpmOrigAux cs (builtTrie hash cs P es) (chunkAndHash hash cs P) 0 es).2.1
          = P.length) := by
  obtain ⟨e, es', rfl⟩ : ∃ e es', es = e :: es' := by
    cases es with
    | nil => exact absurd rfl hes
    | cons e es' => exact ⟨e, es', rfl⟩
  have hmemE : ∀ x, x ∈ es'.foldl addEp [e] ↔ x ∈ e :: es' := by
    intro x
    rw [mem_foldl_addEp]
    simp [List.mem_cons]
  have hsub : ∀ x ∈ es'.foldl addEp [e], x ∈ e :: es' := fun x hx => (hmemE x).mp hx
  have hEne : es'.foldl addEp [e] ≠ [] :=
    List.ne_nil_of_mem ((hmemE e).mpr (List.mem_cons_self e es'))
  have horig := lpmOrig_pathTrie cs (chunkAndHash hash cs P) (es'.foldl addEp [e])
    (e :: es') 0 hsub hEne
  have hlen : (chunkAndHash hash cs P).length = (P.length + cs - 1) / cs :=
    chunkAndHash_length hash cs hcs P
  have hnew :
      (lpmNewAux cs (builtTrie hash cs P (e :: es')) (chunkAndHash hash cs P) 0
          (e :: es')).2 =
        (lpmOrigAux cs (builtTrie hash cs P (e :: es')) (chunkAndHash hash cs P) 0
          (e :: es')).2 :=
    (lpm_eq_aux cs (chunkAndHash hash cs P) _ 0 (e :: es')).symm
  have hfst :
      (lpmOrigAux cs (builtTrie hash cs P (e :: es')) (chunkAndHash hash cs P) 0
          (e :: es')).2.1 = cs * ((P.length + cs - 1) / cs) := by
    rw [builtTrie_eq, horig]
    simp [hlen]
  have hsel :
      ∀ x, x ∈ (lpmOrigAux cs (builtTrie hash cs P (e :: es')) (chunkAndHash hash cs P) 0
          (e :: es')).2.2 ↔ x ∈ e :: es' := by
    intro x
    rw [builtTrie_eq, horig]
    by_cases hnil : chunkAndHash hash cs P = []
    · simp [hnil]
    · simp only [if_neg hnil]
      exact hmemE x
  refine ⟨hfst, hsel, ?_, ?_, ?_⟩
  · rw [hnew]; exact hfst
  · intro x; rw [hnew]; exact hsel x
  · rintro ⟨k, hk⟩
    rw [hfst, hk]
    have h1 : cs * k + cs - 1 = cs * k + (cs - 1) := by omega
    rw [h1, Nat.mul_add_div hcs, Nat.div_eq_of_lt (by omega), Nat.add_zero]

/-- Witness for `c2_amended` at `chunk_size = 2`, `P = "abcd"`,
endpoints `{"x", "y"}`: the lookup matches all of `P` (length 4) and
keeps both endpoints selected. -/
theorem c2_amended_witness :
    0 < 2
    ∧ (["x", "y"] : List String) ≠ []
    ∧ (lpmOrigAux 2 (builtTrie demoHash 2 ['a', 'b', 'c', 'd'] ["x", "y"])
        (chunkAndHash demoHash 2 ['a', 'b', 'c', 'd']) 0 ["x", "y"]).2.1
        = 2 * (((['a', 'b', 'c', 'd'] : List Char).length + 2 - 1) / 2)
    ∧ ("x" ∈ (lpmOrigAux 2 (builtTrie demoHash 2 ['a', 'b', 'c', 'd'] ["x", "y"])
        (chunkAndHash demoHash 2 ['a', 'b', 'c', 'd']) 0 ["x", "y"]).2.2
        ↔ "x" ∈ (["x", "y"] : List String))
    ∧ (lpmNewAux 2 (builtTrie demoHash 2 ['a', 'b', 'c', 'd'] ["x", "y"])
        (chunkAndHash demoHash 2 ['a', 'b', 'c', 'd']) 0 ["x", "y"]).2.1
        = 2 * (((['a', 'b', 'c', 'd'] : List Char).length + 2 - 1) / 2)
    ∧ (lpmOrigAux 2 (builtTrie demoHash 2 ['a', 'b', 'c', 'd'] ["x", "y"])
        (chunkAndHash demoHash 2 ['a', 'b', 'c', 'd']) 0 ["x", "y"]).2.1
        = (['a', 'b', 'c', 'd'] : List Char).length := by
  have H := c2_amended demoHash 2 ['a', 'b', 'c', 'd'] ["x", "y"] (by decide) (by decide)
  exact ⟨by decide, by decide, H.1, H.2.1 "x", H.2.2.1, H.2.2.2.2 (by decide)⟩

/-! ### Variant A descends before testing the intersection -/

/-- C3 as stated is false: in `longest_prefix_match_original` the
assignment `node = node.children[chunk_hash]` happens *before* the
empty-intersection test, so when the intersection is empty the walk
stops with the child — not the parent — as the current node.  Concrete
run: the root has one child (hash 5, endpoints `{"a"}`) and the lookup
runs with `available = {"b"}`; the final node is the child, which
differs from the root. -/
theorem c3_counterexample :
    (lpmOrigAux 1 (TrieNode.mk [(5, TrieNode.mk [] ["a"])] []) [5] 0 ["b"]).1
        = TrieNode.mk [] ["a"]
    ∧ TrieNode.mk [] ["a"] ≠ TrieNode.mk [(5, TrieNode.mk [] ["a"])] []
    ∧ (lpmOrigAux 1 (TrieNode.mk [(5, TrieNode.mk [] ["a"])] []) [5] 0 ["b"]).2
        = (0, ["b"]) := by
  refine ⟨rfl, ?_, rfl⟩
  intro hcontra
  injection hcontra with h1 h2
  exact absurd h1 (by simp)

/-- C3 amended: in Variant A, at a step whose chunk hash has a child
but whose intersection with the current selection is empty, the walk
stops without updating `match_length` or `selected_endpoints`; the
current-node variable, however, has already been reassigned to the
child, so the walk terminates at the child, not at the parent. -/
theorem c3_amended (cs : Nat) (node child : TrieNode) (h : Nat) (rest : List Nat)
    (ml : Nat) (sel : List String)
    (hchild : alookup node.children h = some child)
    (hint : inter child.endpoints sel = []) :
    lpmOrigAux cs node (h :: rest) ml sel = (child, ml, sel) := by
  simp [lpmOrigAux, hchild, hint]

/-- Witness for `c3_amended` on the concrete one-child trie of
`c3_counterexample`. -/
theorem c3_amended_witness :
    alookup (TrieNode.mk [(5, TrieNode.mk [] ["a"])] []).children 5
        = some (TrieNode.mk [] ["a"])
    ∧ inter (TrieNode.mk [] ["a"]).endpoints ["b"] = []
    ∧ lpmOrigAux 1 (TrieNode.mk [(5, TrieNode.mk [] ["a"])] []) [5] 0 ["b"]
        = (TrieNode.mk [] ["a"], 0, ["b"]) :=
  ⟨rfl, rfl, c3_amended 1 (TrieNode.mk [(5, TrieNode.mk [] ["a"])] [])
    (TrieNode.mk [] ["a"]) 5 [] 0 ["b"] rfl rfl⟩

/-! ### Constructor validation -/

/-- C6: `HashTrie.__init__` succeeds exactly when `chunk_size` is a
positive integer, and in every other case (zero, negative, or
non-integer) it raises the `ValueError` — the error result carries no
trie, so no partially-constructed trie is observable. -/
theorem c6_init_validation :
    (∀ v : PyVal, (∃ t, HashTrie.init v = Except.ok t)
        ↔ ∃ n : Int, v = PyVal.intVal n ∧ 0 < n)
    ∧ (∀ v : PyVal, HashTrie.init v = Except.error "chunk_size must be a positive integer."
        ↔ ¬ ∃ n : Int, v = PyVal.intVal n ∧ 0 < n) := by
  constructor
  · intro v
    cases v with
    | intVal n =>
      by_cases hn : n ≤ 0
      · simp only [HashTrie.init, if_pos hn]
        constructor
        · rintro ⟨t, ht⟩; cases ht
        · rintro ⟨m, hm, hpos⟩
          injection hm with hm'
          omega
      · simp only [HashTrie.init, if_neg hn]
        exact ⟨fun _ => ⟨n, rfl, by omega⟩, fun _ => ⟨_, rfl⟩⟩
    | nonInt s =>
      simp only [HashTrie.init]
      constructor
      · rintro ⟨t, ht⟩; cases ht
      · rintro ⟨m, hm, _⟩; cases hm
  · intro v
    cases v with
    | intVal n =>
      by_cases hn : n ≤ 0
      · simp only [HashTrie.init, if_pos hn]
        constructor
        · rintro _ ⟨m, hm, hpos⟩
          injection hm with hm'
          omega
        · intro _; trivial
      · simp only [HashTrie.init, if_neg hn]
        constructor
        · intro hcontra; cases hcontra
        · intro hcontra
          exact absurd ⟨n, rfl, by omega⟩ hcontra
    | nonInt s =>
      simp only [HashTrie.init]
      constructor
      · rintro _ ⟨m, hm, _⟩; cases hm
      · intro _; trivial

/-- Witness for `c6_init_validation`: `chunk_size = 3` constructs a
trie, `chunk_size = 0` raises the `ValueError`. -/
theorem c6_init_validation_witness :
    (∃ t, HashTrie.init (PyVal.intVal 3) = Except.ok t)
    ∧ HashTrie.init (PyVal.intVal 0)
        = Except.error "chunk_size must be a positive integer." := by
  constructor
  · exact (c6_init_validation.1 (PyVal.intVal 3)).mpr ⟨3, rfl, by omega⟩
  · exact (c6_init_validation.2 (PyVal.intVal 0)).mpr
      (by rintro ⟨m, hm, hpos⟩; injection hm with hm'; omega)

/-! ### Insert is idempotent -/

theorem insertAux_idem (hs : List Nat) : ∀ (t : TrieNode) (e : String),
    insertAux (insertAux t hs e) hs e = insertAux t hs e := by
  induction hs with
  | nil =>
    intro t e
    simp [insertAux, addEp_addEp]
  | cons h rest ih =>
    intro t e
    conv_lhs => rw [insertAux, insertAux]
    simp only [children_mk, endpoints_mk, alookup_aupdate_self, Option.getD_some,
      aupdate_aupdate, addEp_addEp, ih]
    rw [insertAux]

/-- C7: insert is idempotent — inserting the same `(request, endpoint)`
pair twice yields exactly the same trie (hence the same endpoint sets at
every node) as inserting it once. -/
theorem c7_insert_idempotent (hash : List Nat → Nat) (cs : Nat) (t : TrieNode)
    (req : List Char) (e : String) :
    insertAux (insertAux t (chunkAndHash hash cs req) e) (chunkAndHash hash cs req) e
      = insertAux t (chunkAndHash hash cs req) e :=
  insertAux_idem (chunkAndHash hash cs req) t e

/-! ### The lookups never mutate the trie (store-passing view) -/

theorem lpmOrigHeap_fst (cs : Nat) (hs : List Nat) :
    ∀ (heap : List NodeData) (i ml : Nat) (sel : List String),
      (lpmOrigHeap cs heap i hs ml sel).1 = heap := by
  induction hs with
  | nil => intro heap i ml sel; rfl
  | cons h rest ih =>
    intro heap i ml sel
    simp only [lpmOrigHeap]
    cases alookup (heap.getD i ⟨[], []⟩).children h with
    | none => rfl
    | some childId =>
      by_cases hint : inter (heap.getD childId ⟨[], []⟩).endpoints sel = []
      · simp only [List.getD, List.get?_eq_getElem?] at hint
        simp [hint]
      · simp only [List.getD, List.get?_eq_getElem?] at hint
        simp [hint, ih]

theorem lpmNewHeap_fst (cs : Nat) (hs : List Nat) :
    ∀ (heap : List NodeData) (i ml : Nat) (sel : List String),
      (lpmNewHeap cs heap i hs ml sel).1 = heap := by
  induction hs with
  | nil => intro heap i ml sel; rfl
  | cons h rest ih =>
    intro heap i ml sel
    simp only [lpmNewHeap]
    cases alookup (heap.getD i ⟨[], []⟩).children h with
    | none => rfl
    | some childId =>
      by_cases hint : inter (heap.getD childId ⟨[], []⟩).endpoints sel = []
      · simp only [List.getD, List.get?_eq_getElem?] at hint
        simp [hint]
      · simp only [List.getD, List.get?_eq_getElem?] at hint
        simp [hint, ih]

/-- C8: both lookup variants are side-effect-free on the trie: in the
store-passing view the heap of nodes comes back unchanged (so every
node's children map and endpoint set is exactly what it was) and in
particular its length is unchanged (no node is created). -/
theorem c8_lookups_side_effect_free (cs : Nat) (heap : List NodeData) (i : Nat)
    (hs : List Nat) (ml : Nat) (sel : List String) :
    (lpmOrigHeap cs heap i hs ml sel).1 = heap
    ∧ (lpmNewHeap cs heap i hs ml sel).1 = heap
    ∧ (lpmOrigHeap cs heap i hs ml sel).1.length = heap.length
    ∧ (lpmNewHeap cs heap i hs ml sel).1.length = heap.length :=
  ⟨lpmOrigHeap_fst cs hs heap i ml sel, lpmNewHeap_fst cs hs heap i ml sel,
   by rw [lpmOrigHeap_fst], by rw [lpmNewHeap_fst]⟩

/-! ### Endpoint sets only grow -/

theorem insertAux_nil (t : TrieNode) (e : String) :
    insertAux t [] e = TrieNode.mk t.children (addEp t.endpoints e) := rfl

theorem insertAux_cons (t : TrieNode) (h : Nat) (rest : List Nat) (e : String) :
    insertAux t (h :: rest) e =
      TrieNode.mk (aupdate t.children h
          (insertAux ((alookup t.children h).getD (TrieNode.mk [] [])) rest e))
        (addEp t.endpoints e) := rfl

theorem mem_insertAux_endpoints_self (t : TrieNode) (hs : List Nat) (e : String) :
    e ∈ (insertAux t hs e).endpoints := by
  rw [insertAux_endpoints]
  exact self_mem_addEp e t.endpoints

theorem mem_insertAux_endpoints_mono {x : String} (t : TrieNode) (hs : List Nat)
    (e : String) (hx : x ∈ t.endpoints) : x ∈ (insertAux t hs e).endpoints := by
  rw [insertAux_endpoints]
  exact mem_addEp_of_mem hx

theorem insertList_endpoints_mono (ops : List (List Nat × String)) :
    ∀ (t : TrieNode) (x : String), x ∈ t.endpoints → x ∈ (insertList t ops).endpoints := by
  induction ops with
  | nil => intro t x hx; exact hx
  | cons o rest ih =>
    intro t x hx
    exact ih (insertAux t o.1 o.2) x (mem_insertAux_endpoints_mono t o.1 o.2 hx)

theorem mem_insertList_root (ops : List (List Nat × String)) :
    ∀ (t : TrieNode) (op : List Nat × String), op ∈ ops →
      op.2 ∈ (insertList t ops).endpoints := by
  induction ops with
  | nil => intro t op hop; simp at hop
  | cons o rest ih =>
    intro t op hop
    rcases List.mem_cons.mp hop with heq | hmem
    · subst heq
      exact insertList_endpoints_mono rest (insertAux t op.1 op.2) op.2
        (mem_insertAux_endpoints_self t op.1 op.2)
    · exact ih (insertAux t o.1 o.2) op hmem

/-- Inserting never loses a node and never removes an endpoint: every
node reachable before an insert is reachable at the same path after it,
with an endpoint set that contains the old one. -/
theorem nodeAt_insertAux_mono (hs : List Nat) :
    ∀ (t : TrieNode) (e : String) (p : List Nat) (n : TrieNode),
      nodeAt t p = some n →
      ∃ n', nodeAt (insertAux t hs e) p = some n'
        ∧ ∀ x ∈ n.endpoints, x ∈ n'.endpoints := by
  induction hs with
  | nil =>
    intro t e p n hp
    cases p with
    | nil =>
      have htn : t = n := by simpa [nodeAt] using hp
      subst htn
      exact ⟨insertAux t [] e, rfl, fun x hx => mem_insertAux_endpoints_mono t [] e hx⟩
    | cons h' p' =>
      refine ⟨n, ?_, fun x hx => hx⟩
      cases hm : alookup t.children h' with
      | none => rw [nodeAt_cons_none hm] at hp; cases hp
      | some c =>
        rw [nodeAt_cons_some hm] at hp
        rw [nodeAt_cons_some (show alookup (insertAux t [] e).children h' = some c from hm)]
        exact hp
  | cons h hs' ih =>
    intro t e p n hp
    cases p with
    | nil =>
      have htn : t = n := by simpa [nodeAt] using hp
      subst htn
      exact ⟨insertAux t (h :: hs') e, rfl,
        fun x hx => mem_insertAux_endpoints_mono t (h :: hs') e hx⟩
    | cons h' p' =>
      cases hm : alookup t.children h' with
      | none => rw [nodeAt_cons_none hm] at hp; cases hp
      | some m =>
        rw [nodeAt_cons_some hm] at hp
        by_cases hhh : h' = h
        · subst hhh
          obtain ⟨n', hn', hgrow⟩ := ih m e p' n hp
          refine ⟨n', ?_, hgrow⟩
          have hgetD : (alookup t.children h').getD (TrieNode.mk [] []) = m := by
            rw [hm]; rfl
          have hlook : alookup (insertAux t (h' :: hs') e).children h'
              = some (insertAux m hs' e) := by
            rw [insertAux_cons, children_mk, hgetD, alookup_aupdate_self]
          rw [nodeAt_cons_some hlook]
          exact hn'
        · refine ⟨n, ?_, fun x hx => hx⟩
          have hlook : alookup (insertAux t (h :: hs') e).children h' = some m := by
            rw [insertAux_cons, children_mk, alookup_aupdate_ne _ _ _ _ hhh, hm]
          rw [nodeAt_cons_some hlook]
          exact hp

/-- C9: every public operation preserves insert-only monotonicity of the
per-node endpoint sets — an insert keeps every pre-existing node
reachable with an endpoint set containing the old one, the root
accumulates every endpoint ever inserted, and the lookups (in the
store-passing view) leave the node heap untouched. -/
theorem c9_endpoint_monotonicity :
    (∀ (t : TrieNode) (hs : List Nat) (e : String) (p : List Nat) (n : TrieNode),
      nodeAt t p = some n →
      ∃ n', nodeAt (insertAux t hs e) p = some n'
        ∧ ∀ x ∈ n.endpoints, x ∈ n'.endpoints)
    ∧ (∀ (t : TrieNode) (ops : List (List Nat × String)) (op : List Nat × String),
        op ∈ ops → op.2 ∈ (insertList t ops).endpoints)
    ∧ (∀ (cs : Nat) (heap : List NodeData) (i : Nat) (hs : List Nat) (ml : Nat)
        (sel : List String),
        (lpmOrigHeap cs heap i hs ml sel).1 = heap
        ∧ (lpmNewHeap cs heap i hs ml sel).1 = heap) :=
  ⟨fun t hs e p n hp => nodeAt_insertAux_mono hs t e p n hp,
   fun t ops op hop => mem_insertList_root ops t op hop,
   fun cs heap i hs ml sel =>
     ⟨lpmOrigHeap_fst cs hs heap i ml sel, lpmNewHeap_fst cs hs heap i ml sel⟩⟩

/-- Witness for `c9_endpoint_monotonicity`: inserting `"b"` under one
chunk hash keeps the root (path `[]`) reachable with its endpoint
`"a"`, and `"b"` lands in the root's endpoint set of the built trie. -/
theorem c9_endpoint_monotonicity_witness :
    (∃ n', nodeAt (insertAux (TrieNode.mk [] ["a"]) [7] "b") [] = some n'
      ∧ ∀ x ∈ (TrieNode.mk [] ["a"]).endpoints, x ∈ n'.endpoints)
    ∧ "b" ∈ (insertList (TrieNode.mk [] []) [([7], "b")]).endpoints := by
  constructor
  · exact c9_endpoint_monotonicity.1 (TrieNode.mk [] ["a"]) [7] "b" []
      (TrieNode.mk [] ["a"]) rfl
  · exact c9_endpoint_monotonicity.2.1 (TrieNode.mk [] []) [([7], "b")] ([7], "b")
      (by simp)

/-! ### Inserting the empty request -/

/-- C10: inserting with an empty request string adds the endpoint to the
root's endpoint set and does nothing else — the children map is exactly
the old one (no child node is created or modified). -/
theorem c10_empty_insert (hash : List Nat → Nat) (cs : Nat) (t : TrieNode) (e : String) :
    insertAux t (chunkAndHash hash cs []) e
        = TrieNode.mk t.children (addEp t.endpoints e)
    ∧ e ∈ (insertAux t (chunkAndHash hash cs []) e).endpoints :=
  ⟨rfl, by rw [insertAux_endpoints]; exact self_mem_addEp e t.endpoints⟩

end Benchmark
